import Mathlib

/-!
Verification of the TORD simulation engine
(`governance-panels/models/tord_core.py`, `governance-panels/models/tord_jax.py`).

The Python code computes with IEEE floats; here float arithmetic is modelled
as exact arithmetic in a linear ordered field (instantiated at `ℚ` for
executable checks and at `ℝ` where the transcendental functions `sin` and
`sqrt` are needed).  A Python `ZeroDivisionError` raised by plain float
division is modelled as `Option.none`.  The transcendental map
`t ↦ sin (2 * π * t)` appearing in the perturbation patterns is abstracted
as a function parameter `sin2pi`, instantiated with `Real.sin` in theorems
stated over `ℝ`.
-/

namespace TORD

/-- Parameter bundle, mirroring the `TORDParameters` dataclass of
`tord_core.py` (field for field; the literature-grounded float defaults
involve `π` and are supplied at each call site instead). -/
structure TORDParameters (α : Type) where
  omega_x : α
  omega_y : α
  gamma_x : α
  gamma_y : α
  alpha : α
  beta : α
  kappa : α
  lambda_ : α
  eta : α
  mu : α
deriving DecidableEq

/-- The 5-component state `[x, v_x, y, v_y, theta]` handled by
`TORDModel.derivatives` and `TORDModel.simulate`.  The same record is used
for a derivative vector `[dx/dt, dv_x/dt, dy/dt, dv_y/dt, dtheta/dt]`. -/
structure TORDState (α : Type) where
  x : α
  v_x : α
  y : α
  v_y : α
  theta : α
deriving DecidableEq

/-- `TORDModel.perturbation` of `tord_core.py`: external forcing `u(t)`
dispatched on the pattern string.  `sin2pi q` abstracts the float
expression `np.sin(2 * np.pi * q)`, so `np.sin(2*np.pi*t/period)` becomes
`sin2pi (t / period)`. -/
def perturbation {α : Type} [LinearOrderedField α] (sin2pi : α → α)
    (t : α) (pattern : String) : α :=
  if pattern = "pulse" then
    if 5 ≤ t ∧ t ≤ 5.5 then 1 else 0
  else if pattern = "stress" then
    if 0 < sin2pi (t / 12) then 0.8 * sin2pi (t / 12) else 0
  else if pattern = "chronic" then
    0.3 * (1 + 0.1 * sin2pi (t / 24))
  else if pattern = "recall" then
    if |t - 10| < 0.2 ∨ |t - 20| < 0.2 ∨ |t - 30| < 0.2 then 1.2 else 0
  else 0

/-- Outcome of the bracketing loop inside `TORDModel._get_delayed`:
either a bracketing pair was found and interpolation returned a value,
or the interpolation divided by zero (Python `ZeroDivisionError`),
or the loop fell through without finding a bracket. -/
inductive BracketResult (α : Type) where
  | found : α → BracketResult α
  | zeroDiv : BracketResult α
  | fallthrough : BracketResult α
deriving DecidableEq

/-- The `for i in range(len(t_hist) - 1)` loop of `TORDModel._get_delayed`:
scan consecutive samples `(t_hist[i], y_hist[i])`, `(t_hist[i+1], y_hist[i+1])`
in order; on the first bracket with `t_hist[i] <= t_delay <= t_hist[i+1]`
return the linear interpolation
`(1 - a) * y_hist[i] + a * y_hist[i+1]` with
`a = (t_delay - t_hist[i]) / (t_hist[i+1] - t_hist[i])`.
A zero-width bracket makes that division raise in Python. -/
def bracketScan {α : Type} [LinearOrderedField α] (t_delay : α) :
    List (α × α) → BracketResult α
  | (t1, y1) :: (t2, y2) :: rest =>
    if t1 ≤ t_delay ∧ t_delay ≤ t2 then
      if t2 - t1 = 0 then BracketResult.zeroDiv
      else
        BracketResult.found
          ((1 - (t_delay - t1) / (t2 - t1)) * y1 + (t_delay - t1) / (t2 - t1) * y2)
    else bracketScan t_delay ((t2, y2) :: rest)
  | _ => BracketResult.fallthrough

/-- `TORDModel._get_delayed(t_delay, t_hist, y_hist, default)` with the
parallel lists `t_hist`, `y_hist` modelled as one list of
`(time, y-value)` pairs.  `none` models the `ZeroDivisionError` Python
raises when interpolating across a zero-width bracket; every normal
return is `some`:
empty history or `t_delay` before the first time gives `default`;
otherwise the bracket loop interpolates; if the loop falls through,
the most recent `y` (`y_hist[-1]`, or `default` on an empty list) is
returned. -/
def get_delayed {α : Type} [LinearOrderedField α]
    (t_delay : α) (hist : List (α × α)) (default : α) : Option α :=
  match hist with
  | [] => some default
  | (t0, _) :: _ =>
    if t_delay < t0 then some default
    else
      match bracketScan t_delay hist with
      | BracketResult.found v => some v
      | BracketResult.zeroDiv => none
      | BracketResult.fallthrough => some (hist.getLastD (0, default)).2

/-- `TORDModel.derivatives(state, t, u_pattern)` of `tord_core.py`.
The mutable history (`self.history_t/x/y`, three parallel lists) is
threaded explicitly as a list of `(t, x, y)` triples.  Exactly as in the
source, the current `(t, x, y)` is appended first, then the delayed value
`y(t - eta)` is looked up in the updated buffer with the current `y` as
default; the returned record holds
`[v_x, dv_x/dt, v_y, dv_y/dt, dtheta/dt]`.  The first component of the
result is the updated history; the second is `none` when the delayed
lookup raised (`ZeroDivisionError`). -/
def derivatives {α : Type} [LinearOrderedField α] (p : TORDParameters α)
    (sin2pi : α → α) (hist : List (α × α × α)) (state : TORDState α)
    (t : α) (u_pattern : String) :
    List (α × α × α) × Option (TORDState α) :=
  let hist2 := hist ++ [(t, state.x, state.y)]
  match get_delayed (t - p.eta) (hist2.map (fun q => (q.1, q.2.2))) state.y with
  | none => (hist2, none)
  | some y_delayed =>
    let u_t := perturbation sin2pi t u_pattern
    (hist2, some
      { x := state.v_x
        v_x := -p.omega_x ^ 2 * state.x - p.gamma_x * state.v_x
               - p.alpha * y_delayed + p.mu * u_t
        y := state.v_y
        v_y := -p.omega_y ^ 2 * state.y - p.gamma_y * state.v_y
               + p.beta * state.x
        theta := p.kappa * state.x ^ 2 - p.lambda_ * state.theta })

/-- `np.linspace(a, b, n)`: `n` evenly spaced samples from `a` to `b`
inclusive.  (For `n = 1` numpy returns `[a]`; here the total field
division `0 / 0 = 0` yields the same value from the common formula.) -/
def linspace {α : Type} [LinearOrderedField α] (a b : α) (n : ℕ) : List α :=
  (List.range n).map (fun i : ℕ => a + (b - a) * (i : α) / ((n : α) - 1))

/-- One explicit-Euler update `state + h * deriv`, componentwise. -/
def eulerStep {α : Type} [LinearOrderedField α]
    (s d : TORDState α) (h : α) : TORDState α :=
  { x := s.x + h * d.x
    v_x := s.v_x + h * d.v_x
    y := s.y + h * d.y
    v_y := s.v_y + h * d.v_y
    theta := s.theta + h * d.theta }

/-- Modelled from the spec: the integration loop that `scipy.integrate.odeint`
performs inside `TORDModel.simulate` is external library code; per the spec
the design assumes a single-evaluation-per-step, time-ordered explicit
fixed-step scheme recording exactly one history sample per step, so the
loop is modelled as explicit Euler over the time grid.  The derivative
function is evaluated once at each grid point except the last, in grid
order; the output trajectory starts with the initial state and holds one
state per grid point.  The first component is the final history buffer;
the second is `none` when a derivative evaluation raised. -/
def integrateLoop {α : Type} [LinearOrderedField α] (p : TORDParameters α)
    (sin2pi : α → α) (u_pattern : String) :
    List α → TORDState α → List (α × α × α) →
    List (α × α × α) × Option (List (TORDState α))
  | [], _, hist => (hist, some [])
  | [_], s, hist => (hist, some [s])
  | t1 :: t2 :: rest, s, hist =>
    match derivatives p sin2pi hist s t1 u_pattern with
    | (hist2, none) => (hist2, none)
    | (hist2, some d) =>
      let next := integrateLoop p sin2pi u_pattern (t2 :: rest)
        (eulerStep s d (t2 - t1)) hist2
      (next.1, next.2.map (fun l => s :: l))

/-- `TORDModel.simulate(t_span, n_points, initial_state, u_pattern)`:
resets the history buffer to empty, substitutes the default initial state
`[0.1, 0.0, 0.05, 0.0, 1.0]` when none is given, builds the
`np.linspace` time grid, and integrates (integration scheme modelled from
the spec, see `integrateLoop`).  Returned: the time grid, the final
history buffer (kept on `self` in the source), and the state trajectory.
Exactly as in the source, no validation of `t_span`, `n_points` or
`initial_state` is performed. -/
def simulate {α : Type} [LinearOrderedField α] (p : TORDParameters α)
    (sin2pi : α → α) (t_span : α × α) (n_points : ℕ)
    (initial_state : Option (TORDState α)) (u_pattern : String) :
    List α × List (α × α × α) × Option (List (TORDState α)) :=
  let y0 := initial_state.getD { x := 0.1, v_x := 0, y := 0.05, v_y := 0, theta := 1 }
  let t := linspace t_span.1 t_span.2 n_points
  let r := integrateLoop p sin2pi u_pattern t y0 []
  (t, r.1, r.2)

/-- `jnp.dot` for two 1-d signals: sum of pairwise products
(as used by `compute_coherence` in `tord_jax.py`). -/
def dotList (a b : List ℝ) : ℝ := (List.zipWith (· * ·) a b).sum

/-- Sum of squares of a signal (the quantity under the square root in
`jnp.linalg.norm`). -/
def sumSq (a : List ℝ) : ℝ := (a.map (fun v => v ^ 2)).sum

/-- `jnp.linalg.norm` of a 1-d signal: Euclidean norm. -/
noncomputable def normList (a : List ℝ) : ℝ := Real.sqrt (sumSq a)

/-- `compute_coherence(x, y)` of `tord_jax.py`:
`|jnp.dot(x, y)| / (norm(x) * norm(y) + 1e-10)`. -/
noncomputable def compute_coherence (x y : List ℝ) : ℝ :=
  |dotList x y| / (normList x * normList y + 1e-10)

/-- `jnp.std`: population standard deviation
`sqrt(mean((v - mean)²))`.  On an empty slice jax/numpy produce `nan`
(0/0 inside the mean), modelled as `none`. -/
noncomputable def npStd (xs : List ℝ) : Option ℝ :=
  if xs.length = 0 then none
  else
    let m := xs.sum / (xs.length : ℝ)
    some (Real.sqrt ((xs.map (fun v => (v - m) ^ 2)).sum / (xs.length : ℝ)))

/-- The `rolling_std` inner function of `compute_boundary_stability`:
for each index `i < n`, the std of the slice
`arr[max(0, i - w//2) : min(n, i + w//2)]`
(Python `max(0, i - w//2)` coincides with truncated `ℕ` subtraction). -/
noncomputable def rolling_std (arr : List ℝ) (w : ℕ) : List (Option ℝ) :=
  (List.range arr.length).map (fun i =>
    npStd ((arr.drop (i - w / 2)).take (min arr.length (i + w / 2) - (i - w / 2))))

/-- `compute_boundary_stability(theta, window)` of `tord_jax.py`:
`1 / (1 + rolling_std(theta, window))` elementwise; a `nan` std
(empty window slice) propagates. -/
noncomputable def compute_boundary_stability (theta : List ℝ) (window : ℕ) :
    List (Option ℝ) :=
  (rolling_std theta window).map (Option.map (fun s => 1 / (1 + s)))

/-- One pass of the `for i in range(n_iterations)` loop body of
`fit_to_data` in `tord_jax.py`: it computes `loss_fn(params)` and
`grad(loss_fn)(params)`, logs the loss every 10th iteration, and — as in
the source, whose loop contains no assignment to `params` — leaves the
parameters untouched.  The closures `loss_fn` / `grad(loss_fn)` over the
observed data and the simulator are abstracted as function arguments. -/
def fitStep {P : Type} (lossFn : P → ℝ) (gradFn : P → P)
    (st : P × List (ℕ × ℝ)) (i : ℕ) : P × List (ℕ × ℝ) :=
  let params := st.1
  let lossVal := lossFn params
  let _grads := gradFn params
  (params, if i % 10 = 0 then st.2 ++ [(i, lossVal)] else st.2)

/-- `fit_to_data(data_t, data_x, initial_params, n_iterations)` of
`tord_jax.py`: runs the iteration loop and returns the parameters
(together with the printed loss log, modelled as a list). -/
def fit_to_data {P : Type} (lossFn : P → ℝ) (gradFn : P → P)
    (initial_params : P) (n_iterations : ℕ) : P × List (ℕ × ℝ) :=
  (List.range n_iterations).foldl (fitStep lossFn gradFn) (initial_params, [])

/-! ## Helper lemmas -/

theorem fit_foldl_fst {P : Type} (lossFn : P → ℝ) (gradFn : P → P)
    (l : List ℕ) (st : P × List (ℕ × ℝ)) :
    (l.foldl (fitStep lossFn gradFn) st).1 = st.1 := by
  induction l generalizing st with
  | nil => rfl
  | cons i l ih => simpa [fitStep] using ih _

theorem bracketScan_ne_zeroDiv {α : Type} [LinearOrderedField α] (td : α)
    (l : List (α × α)) (hc : List.Chain' (· < ·) (l.map Prod.fst)) :
    bracketScan td l ≠ BracketResult.zeroDiv := by
  induction l with
  | nil => simp [bracketScan]
  | cons a l ih =>
    obtain ⟨t1, y1⟩ := a
    cases l with
    | nil => simp [bracketScan]
    | cons b rest =>
      obtain ⟨t2, y2⟩ := b
      simp only [List.map_cons, List.chain'_cons] at hc
      have h12 : t1 < t2 := hc.1
      have hrest := hc.2
      simp only [bracketScan]
      by_cases hcond : t1 ≤ td ∧ td ≤ t2
      · rw [if_pos hcond, if_neg (sub_ne_zero_of_ne (ne_of_gt h12))]
        simp
      · rw [if_neg hcond]
        exact ih (by simpa using hrest)

theorem get_delayed_isSome {α : Type} [LinearOrderedField α] (td d : α)
    (l : List (α × α)) (hc : List.Chain' (· < ·) (l.map Prod.fst)) :
    (get_delayed td l d).isSome := by
  cases l with
  | nil => simp [get_delayed]
  | cons a rest =>
    obtain ⟨t0, y0⟩ := a
    simp only [get_delayed]
    by_cases h0 : td < t0
    · rw [if_pos h0]; simp
    · rw [if_neg h0]
      cases hb : bracketScan td ((t0, y0) :: rest) with
      | found v => simp
      | zeroDiv => exact absurd hb (bracketScan_ne_zeroDiv td _ hc)
      | fallthrough => simp

theorem getLastD_append_singleton {β : Type} (l : List β) (a z : β) :
    (l ++ [a]).getLastD z = a := by
  simp [List.getLastD_eq_getLast?, List.getLast?_concat]

theorem bracketScan_interp {α : Type} [LinearOrderedField α] (td : α)
    (pre : List (α × α)) (t1 y1 t2 y2 : α) (post : List (α × α))
    (hc : List.Chain' (· < ·) ((pre ++ (t1, y1) :: (t2, y2) :: post).map Prod.fst))
    (h1 : t1 ≤ td) (h2 : td ≤ t2) :
    bracketScan td (pre ++ (t1, y1) :: (t2, y2) :: post)
      = BracketResult.found
          ((1 - (td - t1) / (t2 - t1)) * y1 + (td - t1) / (t2 - t1) * y2) := by
  induction pre with
  | nil =>
    simp only [List.nil_append, List.map_cons, List.chain'_cons] at hc
    have h12 : t1 < t2 := hc.1
    simp only [bracketScan]
    rw [if_pos ⟨h1, h2⟩, if_neg (sub_ne_zero_of_ne (ne_of_gt h12))]
  | cons a pre ih =>
    obtain ⟨ta, ya⟩ := a
    have hpair := List.chain'_iff_pairwise.mp hc
    simp only [List.cons_append, List.map_cons, List.pairwise_cons] at hpair
    have hta1 : ta < t1 := hpair.1 t1 (by simp)
    have hc' : List.Chain' (· < ·) ((pre ++ (t1, y1) :: (t2, y2) :: post).map Prod.fst) :=
      List.chain'_iff_pairwise.mpr hpair.2
    cases pre with
    | nil =>
      rcases eq_or_lt_of_le h1 with heq | hlt
      · -- td = t1: the first bracket (ta, t1) wins; its value is y1, which
        -- coincides with the claimed interpolation at the left endpoint
        subst heq
        simp only [List.nil_append, List.cons_append, bracketScan]
        rw [if_pos ⟨le_of_lt hta1, le_refl t1⟩,
          if_neg (sub_ne_zero_of_ne (ne_of_gt hta1))]
        congr 1
        rw [sub_self, zero_div, div_self (sub_ne_zero_of_ne (ne_of_gt hta1))]
        ring
      · simp only [List.nil_append, List.cons_append, bracketScan]
        rw [if_neg (fun hco => absurd hco.2 (not_le.mpr hlt))]
        exact ih hc'
    | cons b pre' =>
      obtain ⟨tb, yb⟩ := b
      have htb1 : tb < t1 := by
        have := List.chain'_iff_pairwise.mp hc'
        simp only [List.cons_append, List.map_cons, List.pairwise_cons] at this
        exact this.1 t1 (by simp)
      simp only [List.cons_append, bracketScan]
      rw [if_neg (fun hco => absurd (le_trans h1 hco.2) (not_le.mpr htb1))]
      exact ih hc'

theorem bracketScan_beyond {α : Type} [LinearOrderedField α] (td : α)
    (pre : List (α × α)) (tl yl : α)
    (hc : List.Chain' (· < ·) ((pre ++ [(tl, yl)]).map Prod.fst))
    (hle : tl ≤ td) :
    bracketScan td (pre ++ [(tl, yl)]) = BracketResult.fallthrough ∨
      bracketScan td (pre ++ [(tl, yl)]) = BracketResult.found yl := by
  induction pre with
  | nil => left; rfl
  | cons a pre ih =>
    obtain ⟨ta, ya⟩ := a
    have hpair := List.chain'_iff_pairwise.mp hc
    simp only [List.cons_append, List.map_cons, List.pairwise_cons] at hpair
    have htal : ta < tl := hpair.1 tl (by simp)
    have hc' : List.Chain' (· < ·) ((pre ++ [(tl, yl)]).map Prod.fst) :=
      List.chain'_iff_pairwise.mpr hpair.2
    cases pre with
    | nil =>
      simp only [List.nil_append, List.cons_append, bracketScan]
      by_cases hcond : ta ≤ td ∧ td ≤ tl
      · right
        rw [if_pos hcond, if_neg (sub_ne_zero_of_ne (ne_of_gt htal))]
        have htd : td = tl := le_antisymm hcond.2 hle
        subst htd
        congr 1
        rw [div_self (sub_ne_zero_of_ne (ne_of_gt htal))]
        ring
      · rw [if_neg hcond]; left; rfl
    | cons b pre' =>
      obtain ⟨tb, yb⟩ := b
      have htbl : tb < tl := by
        have := List.chain'_iff_pairwise.mp hc'
        simp only [List.cons_append, List.map_cons, List.pairwise_cons] at this
        exact this.1 tl (by simp)
      simp only [List.cons_append, bracketScan]
      rw [if_neg (fun hco => absurd (le_trans hle hco.2) (not_le.mpr htbl))]
      exact ih hc'

theorem derivatives_unfold {α : Type} [LinearOrderedField α] (p : TORDParameters α)
    (sin2pi : α → α) (hist : List (α × α × α)) (s : TORDState α) (t : α) (pat : String) :
    derivatives p sin2pi hist s t pat =
      match get_delayed (t - p.eta)
          ((hist ++ [(t, s.x, s.y)]).map (fun q => (q.1, q.2.2))) s.y with
      | none => (hist ++ [(t, s.x, s.y)], none)
      | some y_delayed =>
        (hist ++ [(t, s.x, s.y)], some
          { x := s.v_x
            v_x := -p.omega_x ^ 2 * s.x - p.gamma_x * s.v_x
                   - p.alpha * y_delayed + p.mu * perturbation sin2pi t pat
            y := s.v_y
            v_y := -p.omega_y ^ 2 * s.y - p.gamma_y * s.v_y + p.beta * s.x
            theta := p.kappa * s.x ^ 2 - p.lambda_ * s.theta }) := rfl

theorem derivatives_fst {α : Type} [LinearOrderedField α] (p : TORDParameters α)
    (sin2pi : α → α) (hist : List (α × α × α)) (s : TORDState α) (t : α) (pat : String) :
    (derivatives p sin2pi hist s t pat).1 = hist ++ [(t, s.x, s.y)] := by
  rw [derivatives_unfold]
  cases get_delayed (t - p.eta)
      ((hist ++ [(t, s.x, s.y)]).map (fun q => (q.1, q.2.2))) s.y <;> rfl

theorem derivatives_theta {α : Type} [LinearOrderedField α] {p : TORDParameters α}
    {sin2pi : α → α} {hist : List (α × α × α)} {s : TORDState α} {t : α} {pat : String}
    {d : TORDState α} (h : (derivatives p sin2pi hist s t pat).2 = some d) :
    d.theta = p.kappa * s.x ^ 2 - p.lambda_ * s.theta := by
  rw [derivatives_unfold] at h
  cases hg : get_delayed (t - p.eta)
      ((hist ++ [(t, s.x, s.y)]).map (fun q => (q.1, q.2.2))) s.y with
  | none => rw [hg] at h; exact Option.noConfusion h
  | some y_delayed =>
    rw [hg] at h
    have h2 := Option.some.inj h
    rw [← h2]

theorem histTY_times {α : Type} (hist : List (α × α × α)) :
    ((hist.map (fun q => (q.1, q.2.2))).map Prod.fst) = hist.map (fun q => q.1) := by
  simp [List.map_map, Function.comp]

theorem derivatives_snd_isSome {α : Type} [LinearOrderedField α] (p : TORDParameters α)
    (sin2pi : α → α) (hist : List (α × α × α)) (s : TORDState α) (t : α) (pat : String)
    (hc : List.Chain' (· < ·) ((hist ++ [(t, s.x, s.y)]).map (fun q => q.1))) :
    (derivatives p sin2pi hist s t pat).2.isSome := by
  rw [derivatives_unfold]
  have hsome := get_delayed_isSome (t - p.eta) s.y
    ((hist ++ [(t, s.x, s.y)]).map (fun q => (q.1, q.2.2)))
    (by rw [histTY_times]; exact hc)
  cases hg : get_delayed (t - p.eta)
      ((hist ++ [(t, s.x, s.y)]).map (fun q => (q.1, q.2.2))) s.y with
  | none => rw [hg] at hsome; exact absurd hsome (by simp)
  | some y_delayed => simp

theorem integrateLoop_hist {α : Type} [LinearOrderedField α] (p : TORDParameters α)
    (sin2pi : α → α) (pat : String) :
    ∀ (ts : List α) (s : TORDState α) (hist : List (α × α × α)),
      List.Chain' (· < ·) ts →
      List.Chain' (· < ·) (hist.map (fun q => q.1)) →
      (∀ q ∈ hist, ∀ t ∈ ts, q.1 < t) →
      (integrateLoop p sin2pi pat ts s hist).1.map (fun q => q.1)
          = hist.map (fun q => q.1) ++ ts.dropLast ∧
      (integrateLoop p sin2pi pat ts s hist).2.isSome
  | [], s, hist, _, _, _ => by simp [integrateLoop]
  | [t], s, hist, _, _, _ => by simp [integrateLoop]
  | t1 :: t2 :: rest, s, hist, hts, hh, hlt => by
    have hts_pair := List.chain'_iff_pairwise.mp hts
    rw [List.pairwise_cons] at hts_pair
    have hh_pair := List.chain'_iff_pairwise.mp hh
    have hchain2 : List.Chain' (· < ·) ((hist ++ [(t1, s.x, s.y)]).map (fun q => q.1)) := by
      rw [List.map_append]
      apply List.chain'_iff_pairwise.mpr
      rw [List.pairwise_append]
      refine ⟨hh_pair, by simp, ?_⟩
      intro u hu v hv
      simp only [List.map_cons, List.map_nil, List.mem_singleton] at hv
      obtain ⟨q, hq, rfl⟩ := List.mem_map.mp hu
      rw [hv]
      exact hlt q hq t1 (by simp)
    have hsome := derivatives_snd_isSome p sin2pi hist s t1 pat hchain2
    obtain ⟨d, hd⟩ := Option.isSome_iff_exists.mp hsome
    have hpair : derivatives p sin2pi hist s t1 pat = (hist ++ [(t1, s.x, s.y)], some d) := by
      rw [Prod.ext_iff]
      exact ⟨derivatives_fst p sin2pi hist s t1 pat, hd⟩
    have hih := integrateLoop_hist p sin2pi pat (t2 :: rest)
      (eulerStep s d (t2 - t1)) (hist ++ [(t1, s.x, s.y)])
      (List.chain'_cons'.mp hts).2
      hchain2
      (by
        intro q hq t ht
        rcases List.mem_append.mp hq with hq | hq
        · exact hlt q hq t (List.mem_cons_of_mem _ ht)
        · simp only [List.mem_singleton] at hq
          subst hq
          exact hts_pair.1 t ht)
    simp only [integrateLoop, hpair]
    constructor
    · have hdl : (t1 :: t2 :: rest).dropLast = t1 :: (t2 :: rest).dropLast := rfl
      rw [hih.1, List.map_append, hdl, List.append_assoc]
      simp
    · simpa using hih.2

theorem integrateLoop_theta {α : Type} [LinearOrderedField α] (p : TORDParameters α)
    (sin2pi : α → α) (pat : String)
    (hkappa : 0 ≤ p.kappa) (hlam : 0 ≤ p.lambda_) :
    ∀ (ts : List α) (s : TORDState α) (hist : List (α × α × α)) (l : List (TORDState α)),
      List.Chain' (fun u v => 0 ≤ v - u ∧ p.lambda_ * (v - u) ≤ 1) ts →
      0 ≤ s.theta →
      (integrateLoop p sin2pi pat ts s hist).2 = some l →
      l.length = ts.length ∧ ∀ st ∈ l, 0 ≤ st.theta
  | [], s, hist, l, _, hθ, hl => by
    simp only [integrateLoop, Option.some.injEq] at hl
    subst hl
    simp
  | [t], s, hist, l, _, hθ, hl => by
    simp only [integrateLoop, Option.some.injEq] at hl
    subst hl
    refine ⟨rfl, ?_⟩
    intro st hst
    rw [List.mem_singleton] at hst
    exact hst ▸ hθ
  | t1 :: t2 :: rest, s, hist, l, hts, hθ, hl => by
    cases hd : (derivatives p sin2pi hist s t1 pat).2 with
    | none =>
      have hpair : derivatives p sin2pi hist s t1 pat
          = ((derivatives p sin2pi hist s t1 pat).1, none) := by
        rw [Prod.ext_iff]; exact ⟨rfl, hd⟩
      rw [integrateLoop, hpair] at hl
      exact Option.noConfusion hl
    | some d =>
      have hpair : derivatives p sin2pi hist s t1 pat
          = ((derivatives p sin2pi hist s t1 pat).1, some d) := by
        rw [Prod.ext_iff]; exact ⟨rfl, hd⟩
      rw [integrateLoop, hpair] at hl
      dsimp only [] at hl
      cases hnext : (integrateLoop p sin2pi pat (t2 :: rest) (eulerStep s d (t2 - t1))
          (derivatives p sin2pi hist s t1 pat).1).2 with
      | none =>
        rw [hnext] at hl
        simp at hl
      | some l2 =>
      rw [hnext] at hl
      simp only [Option.map_some', Option.some.injEq] at hl
      subst hl
      have hl2 := hnext
      have hstep := (List.chain'_cons.mp hts).1
      have hθ2 : 0 ≤ (eulerStep s d (t2 - t1)).theta := by
        have htheta_d := derivatives_theta hd
        simp only [eulerStep, htheta_d]
        have e1 : 0 ≤ s.theta * (1 - p.lambda_ * (t2 - t1)) :=
          mul_nonneg hθ (by linarith [hstep.2])
        have e2 : 0 ≤ (t2 - t1) * (p.kappa * s.x ^ 2) :=
          mul_nonneg hstep.1 (mul_nonneg hkappa (sq_nonneg s.x))
        nlinarith [e1, e2]
      have hih := integrateLoop_theta p sin2pi pat hkappa hlam (t2 :: rest)
        (eulerStep s d (t2 - t1)) ((derivatives p sin2pi hist s t1 pat).1) l2
        (List.chain'_cons.mp hts).2 hθ2 hl2
      refine ⟨by simp [hih.1], ?_⟩
      intro st hst
      rcases List.mem_cons.mp hst with rfl | hst
      · exact hθ
      · exact hih.2 st hst

theorem linspace_length {α : Type} [LinearOrderedField α] (a b : α) (n : ℕ) :
    (linspace a b n).length = n := by simp [linspace]

theorem linspace_getD {α : Type} [LinearOrderedField α] (a b : α) {n i : ℕ} (hi : i < n) :
    (linspace a b n).getD i 0 = a + (b - a) * i / ((n : α) - 1) := by
  have hlen : i < (linspace a b n).length := by rw [linspace_length]; exact hi
  rw [List.getD_eq_getElem _ _ hlen]
  simp [linspace]

theorem linspace_chain_lt {α : Type} [LinearOrderedField α] {a b : α} (hab : a < b) (n : ℕ) :
    List.Chain' (· < ·) (linspace a b n) := by
  unfold linspace
  rw [List.chain'_map]
  cases n with
  | zero => simp
  | succ m =>
    rw [List.chain'_range_succ]
    intro i hi
    have hm : (0 : α) < (m : α) := by
      have : 0 < m := lt_of_le_of_lt (Nat.zero_le i) hi
      exact_mod_cast this
    have hm1 : ((m + 1 : ℕ) : α) - 1 = (m : α) := by push_cast; ring
    rw [hm1]
    apply add_lt_add_left
    rw [div_lt_div_iff_of_pos_right hm]
    have hba : (0 : α) < b - a := sub_pos.mpr hab
    push_cast
    nlinarith

theorem linspace_chain_step {α : Type} [LinearOrderedField α] (a b lam : α) (n : ℕ)
    (hab : a < b) (hstep : lam * ((b - a) / ((n : α) - 1)) ≤ 1) :
    List.Chain' (fun u v => 0 ≤ v - u ∧ lam * (v - u) ≤ 1) (linspace a b n) := by
  unfold linspace
  rw [List.chain'_map]
  cases n with
  | zero => simp
  | succ m =>
    rw [List.chain'_range_succ]
    intro i hi
    have hm : (0 : α) < (m : α) := by
      have : 0 < m := lt_of_le_of_lt (Nat.zero_le i) hi
      exact_mod_cast this
    have hm1 : ((m + 1 : ℕ) : α) - 1 = (m : α) := by push_cast; ring
    rw [hm1] at hstep ⊢
    have hdiff : a + (b - a) * ((i + 1 : ℕ) : α) / (m : α)
        - (a + (b - a) * (i : α) / (m : α)) = (b - a) / (m : α) := by
      push_cast
      field_simp
      ring
    rw [hdiff]
    exact ⟨div_nonneg (le_of_lt (sub_pos.mpr hab)) hm.le, hstep⟩

theorem sumSq_nonneg (a : List ℝ) : 0 ≤ sumSq a := by
  apply List.sum_nonneg
  intro x hx
  obtain ⟨v, _, rfl⟩ := List.mem_map.mp hx
  positivity

theorem cs_step (x y A B D : ℝ) (hA : 0 ≤ A) (hB : 0 ≤ B) (hD : D ^ 2 ≤ A * B) :
    (x * y + D) ^ 2 ≤ (x ^ 2 + A) * (y ^ 2 + B) := by
  rcases eq_or_lt_of_le hB with hB0 | hBpos
  · have hD0 : D = 0 := by nlinarith [sq_nonneg D]
    subst hD0
    rw [← hB0]
    nlinarith [mul_nonneg hA (sq_nonneg y)]
  · nlinarith [sq_nonneg (x * B - y * D),
      mul_nonneg (sq_nonneg y) (sub_nonneg.2 hD),
      mul_nonneg hB (sub_nonneg.2 hD)]

theorem dotList_sq_le (a : List ℝ) : ∀ b : List ℝ,
    dotList a b ^ 2 ≤ sumSq a * sumSq b := by
  induction a with
  | nil => intro b; simp [dotList, sumSq, sumSq_nonneg]
  | cons x a ih =>
    intro b
    cases b with
    | nil => simp [dotList, sumSq]
    | cons y b =>
      have hexp : dotList (x :: a) (y :: b) = x * y + dotList a b := by
        simp [dotList]
      have hexpA : sumSq (x :: a) = x ^ 2 + sumSq a := by simp [sumSq]
      have hexpB : sumSq (y :: b) = y ^ 2 + sumSq b := by simp [sumSq]
      rw [hexp, hexpA, hexpB]
      exact cs_step x y (sumSq a) (sumSq b) (dotList a b)
        (sumSq_nonneg a) (sumSq_nonneg b) (ih b)

theorem dotList_self (a : List ℝ) : dotList a a = sumSq a := by
  induction a with
  | nil => rfl
  | cons x a ih => simp [dotList, sumSq] at ih ⊢; rw [ih]; ring

theorem dotList_neg (a : List ℝ) : dotList a (a.map (fun v => -v)) = -(dotList a a) := by
  induction a with
  | nil => simp [dotList]
  | cons x a ih => simp [dotList] at ih ⊢; rw [ih]; ring

theorem sumSq_neg (a : List ℝ) : sumSq (a.map (fun v => -v)) = sumSq a := by
  unfold sumSq
  rw [List.map_map,
    show ((fun v : ℝ => v ^ 2) ∘ fun v : ℝ => -v) = (fun v : ℝ => v ^ 2) from
      funext fun v => by simp]

theorem abs_dotList_le (a b : List ℝ) : |dotList a b| ≤ normList a * normList b := by
  have h1 : |dotList a b| = Real.sqrt (dotList a b ^ 2) := (Real.sqrt_sq_eq_abs _).symm
  rw [h1, normList, normList, ← Real.sqrt_mul (sumSq_nonneg a)]
  exact Real.sqrt_le_sqrt (dotList_sq_le a b)

theorem npStd_eq_some (xs : List ℝ) (h : ¬ xs.length = 0) :
    npStd xs = some (Real.sqrt
      ((xs.map (fun v => (v - xs.sum / (xs.length : ℝ)) ^ 2)).sum / (xs.length : ℝ))) := by
  rw [npStd, if_neg h]

theorem one_div_one_add_mem (s : ℝ) (hs : 0 ≤ s) :
    0 < 1 / (1 + s) ∧ 1 / (1 + s) ≤ 1 := by
  constructor
  · positivity
  · rw [div_le_one (by positivity)]
    linarith

/-! ## Claim theorems -/

/-- C1: the claim says `simulate` rejects degenerate inputs (non-finite
initial state, non-positive `n_points`, time span with start ≥ end) with a
validation failure before integration.  The source contains no validation
at all: called with the degenerate span `(5, 1)` (start > end) it silently
builds a decreasing grid and integrates backwards, returning full-length
time and state arrays.  This theorem evaluates the model at that failing
input: the call yields a 4-point grid and a 4-row trajectory instead of
any failure. -/
theorem simulate_degenerate_span_runs :
    (simulate (⟨0, 0, 0, 0, 0, 0, 0, 0, 1/2, 0⟩ : TORDParameters ℚ)
      (fun _ => 0) (5, 1) 4 none "pulse").1.length = 4 ∧
    ((simulate (⟨0, 0, 0, 0, 0, 0, 0, 0, 1/2, 0⟩ : TORDParameters ℚ)
      (fun _ => 0) (5, 1) 4 none "pulse").2.2.map List.length) = some 4 := by
  norm_num [simulate, linspace, integrateLoop, derivatives, get_delayed,
    bracketScan, eulerStep, perturbation, List.range_succ]

/-- C2: whenever `derivatives` returns a value, that value is exactly the
5-vector `[v_x, -omega_x^2*x - gamma_x*v_x - alpha*y_delayed + mu*u(t),
v_y, -omega_y^2*y - gamma_y*v_y + beta*x, kappa*x^2 - lambda*theta]`,
where `y_delayed` is the history-buffer lookup at `t - eta` (on the
buffer holding the just-appended current sample, as in the source) with
the current `y` as fallback default. -/
theorem derivatives_matches_dde_form {α : Type} [LinearOrderedField α]
    (p : TORDParameters α) (sin2pi : α → α) (hist : List (α × α × α))
    (s : TORDState α) (t : α) (pat : String) (d : TORDState α)
    (h : (derivatives p sin2pi hist s t pat).2 = some d) :
    ∃ y_delayed,
      get_delayed (t - p.eta)
        ((hist ++ [(t, s.x, s.y)]).map (fun q => (q.1, q.2.2))) s.y = some y_delayed ∧
      d.x = s.v_x ∧
      d.v_x = -p.omega_x ^ 2 * s.x - p.gamma_x * s.v_x - p.alpha * y_delayed
              + p.mu * perturbation sin2pi t pat ∧
      d.y = s.v_y ∧
      d.v_y = -p.omega_y ^ 2 * s.y - p.gamma_y * s.v_y + p.beta * s.x ∧
      d.theta = p.kappa * s.x ^ 2 - p.lambda_ * s.theta := by
  have he : derivatives p sin2pi hist s t pat =
      match get_delayed (t - p.eta)
          ((hist ++ [(t, s.x, s.y)]).map (fun q => (q.1, q.2.2))) s.y with
      | none => (hist ++ [(t, s.x, s.y)], none)
      | some y_delayed =>
        (hist ++ [(t, s.x, s.y)], some
          { x := s.v_x
            v_x := -p.omega_x ^ 2 * s.x - p.gamma_x * s.v_x
                   - p.alpha * y_delayed + p.mu * perturbation sin2pi t pat
            y := s.v_y
            v_y := -p.omega_y ^ 2 * s.y - p.gamma_y * s.v_y + p.beta * s.x
            theta := p.kappa * s.x ^ 2 - p.lambda_ * s.theta }) := rfl
  rw [he] at h
  cases hg : get_delayed (t - p.eta)
      ((hist ++ [(t, s.x, s.y)]).map (fun q => (q.1, q.2.2))) s.y with
  | none => rw [hg] at h; exact Option.noConfusion h
  | some y_delayed =>
    rw [hg] at h
    have h2 := Option.some.inj h
    subst h2
    exact ⟨y_delayed, rfl, rfl, rfl, rfl, rfl, rfl⟩

/-- Witness for C2 at a concrete input. -/
theorem derivatives_matches_dde_form_witness :
    (derivatives (⟨1, 1, 1, 1, 1, 1, 1, 1, 1, 1⟩ : TORDParameters ℚ) (fun _ => 0)
      [] ⟨1, 2, 3, 4, 5⟩ 0 "none").2 = some ⟨2, -6, 4, -6, -4⟩ ∧
    (∃ y_delayed,
      get_delayed ((0 : ℚ) - 1) [(0, 3)] 3 = some y_delayed ∧
      (2 : ℚ) = 2 ∧
      (-6 : ℚ) = -1 ^ 2 * 1 - 1 * 2 - 1 * y_delayed
              + 1 * perturbation (fun _ => (0 : ℚ)) 0 "none" ∧
      (4 : ℚ) = 4 ∧
      (-6 : ℚ) = -1 ^ 2 * 3 - 1 * 4 + 1 * 1 ∧
      (-4 : ℚ) = 1 * 1 ^ 2 - 1 * 5) := by
  have h : (derivatives (⟨1, 1, 1, 1, 1, 1, 1, 1, 1, 1⟩ : TORDParameters ℚ) (fun _ => 0)
      [] ⟨1, 2, 3, 4, 5⟩ 0 "none").2 = some ⟨2, -6, 4, -6, -4⟩ := by
    norm_num [derivatives, get_delayed, bracketScan, perturbation]
    decide
  exact ⟨h, derivatives_matches_dde_form _ _ _ _ _ _ _ h⟩

/-- C3: the claim says the delayed lookup handles duplicate timestamps
without dividing by zero.  It does not: on the buffer with times
`[1, 1]` (a duplicated timestamp) queried at `t_delay = 1`, the bracket
`t_hist[0] <= t_delay <= t_hist[1]` is taken with width
`t_hist[1] - t_hist[0] = 0` and the interpolation divides by zero
(Python raises `ZeroDivisionError`, modelled as `none`). -/
theorem get_delayed_duplicate_timestamp_divzero :
    get_delayed (1 : ℚ) [(1, 0), (1, 1)] 0 = none := by
  norm_num [get_delayed, bracketScan]

/-- C9: the claim says `fit_to_data` performs gradient-based parameter
updates and returns the adjusted parameters.  The source's loop computes
the loss and the gradients every iteration but contains no assignment to
`params`, so the returned parameter set is always exactly the initial
one: here, after the full 100-iteration budget on a concrete parameter
set, the output equals the input unchanged. -/
theorem fit_to_data_returns_initial_params :
    (fit_to_data (fun _ : TORDParameters ℚ => (0 : ℝ)) (fun q => q)
      ⟨1, 2, 3, 4, 5, 6, 7, 8, 9, 10⟩ 100).1 = ⟨1, 2, 3, 4, 5, 6, 7, 8, 9, 10⟩ :=
  fit_foldl_fst _ _ _ _

/-- C7: with `sin2pi` instantiated by `q ↦ sin(2πq)`, the perturbation
function is total and matches the spec's closed forms for every `t`:
`pulse` is the indicator of the closed interval `[5, 5.5]` (in particular
`0` at `t = 3`, `1` at `t = 5.2`, `0` at `t = 6`), `stress` is
`max 0 (0.8·sin(2πt/12))`, `chronic` is `0.3·(1 + 0.1·sin(2πt/24))`,
`recall` is `1.2` exactly when `t` is within `0.2` of one of
`{10, 20, 30}`, and every unsupported pattern tag yields `0`. -/
theorem perturbation_closed_forms :
    (∀ t : ℝ,
      perturbation (fun q => Real.sin (2 * Real.pi * q)) t "pulse"
        = (if 5 ≤ t ∧ t ≤ 5.5 then 1 else 0) ∧
      perturbation (fun q => Real.sin (2 * Real.pi * q)) t "stress"
        = max 0 (0.8 * Real.sin (2 * Real.pi * t / 12)) ∧
      perturbation (fun q => Real.sin (2 * Real.pi * q)) t "chronic"
        = 0.3 * (1 + 0.1 * Real.sin (2 * Real.pi * t / 24)) ∧
      perturbation (fun q => Real.sin (2 * Real.pi * q)) t "recall"
        = (if |t - 10| < 0.2 ∨ |t - 20| < 0.2 ∨ |t - 30| < 0.2 then 1.2 else 0) ∧
      ∀ pat, pat ∉ ["pulse", "stress", "chronic", "recall"] →
        perturbation (fun q => Real.sin (2 * Real.pi * q)) t pat = 0) ∧
    perturbation (fun q => Real.sin (2 * Real.pi * q)) 3 "pulse" = 0 ∧
    perturbation (fun q => Real.sin (2 * Real.pi * q)) 5.2 "pulse" = 1 ∧
    perturbation (fun q => Real.sin (2 * Real.pi * q)) 6 "pulse" = 0 := by
  have harg12 : ∀ t : ℝ, 2 * Real.pi * (t / 12) = 2 * Real.pi * t / 12 := by
    intro t; ring
  have harg24 : ∀ t : ℝ, 2 * Real.pi * (t / 24) = 2 * Real.pi * t / 24 := by
    intro t; ring
  refine ⟨fun t => ⟨rfl, ?_, ?_, rfl, ?_⟩, ?_, ?_, ?_⟩
  · have he : perturbation (fun q => Real.sin (2 * Real.pi * q)) t "stress"
        = (if 0 < Real.sin (2 * Real.pi * (t / 12))
            then 0.8 * Real.sin (2 * Real.pi * (t / 12)) else 0) := rfl
    rw [he, harg12]
    rcases lt_or_le 0 (Real.sin (2 * Real.pi * t / 12)) with hpos | hle
    · rw [if_pos hpos, max_eq_right (by nlinarith)]
    · rw [if_neg (not_lt.mpr hle), max_eq_left (by nlinarith)]
  · have he : perturbation (fun q => Real.sin (2 * Real.pi * q)) t "chronic"
        = 0.3 * (1 + 0.1 * Real.sin (2 * Real.pi * (t / 24))) := rfl
    rw [he, harg24]
  · intro pat hp
    simp only [List.mem_cons, List.not_mem_nil, or_false, not_or] at hp
    obtain ⟨h1, h2, h3, h4⟩ := hp
    simp [perturbation, h1, h2, h3, h4]
  · norm_num [perturbation]
  · norm_num [perturbation]
  · norm_num [perturbation]

/-- Witness for C7's conditional clause at concrete inputs. -/
theorem perturbation_closed_forms_witness :
    perturbation (fun q => Real.sin (2 * Real.pi * q)) 6 "other" = 0 ∧
    perturbation (fun q => Real.sin (2 * Real.pi * q)) 7 "chronic"
      = 0.3 * (1 + 0.1 * Real.sin (2 * Real.pi * 7 / 24)) :=
  ⟨(perturbation_closed_forms.1 6).2.2.2.2 "other" (by decide),
   (perturbation_closed_forms.1 7).2.2.1⟩

/-- C5: delayed-lookup behaviour on a history buffer with strictly
increasing times: an empty buffer, or a query before the first recorded
time, returns exactly the supplied default (for any delay and default);
a query between two consecutive recorded times returns the linear
interpolation of their y-components; a query at or beyond the last
recorded time returns the most recently recorded y-value (no
extrapolation). -/
theorem get_delayed_spec {α : Type} [LinearOrderedField α] (td default : α)
    (hist : List (α × α))
    (hc : List.Chain' (· < ·) (hist.map Prod.fst)) :
    (hist = [] → get_delayed td hist default = some default) ∧
    (∀ t0 y0 rest, hist = (t0, y0) :: rest → td < t0 →
      get_delayed td hist default = some default) ∧
    (∀ pre t1 y1 t2 y2 post, hist = pre ++ (t1, y1) :: (t2, y2) :: post →
      t1 ≤ td → td ≤ t2 →
      get_delayed td hist default
        = some ((1 - (td - t1) / (t2 - t1)) * y1 + (td - t1) / (t2 - t1) * y2)) ∧
    (∀ pre tl yl, hist = pre ++ [(tl, yl)] → tl ≤ td →
      get_delayed td hist default = some yl) := by
  refine ⟨?_, ?_, ?_, ?_⟩
  · intro h; subst h; rfl
  · intro t0 y0 rest h hlt; subst h
    simp [get_delayed, if_pos hlt]
  · intro pre t1 y1 t2 y2 post h h1 h2
    subst h
    have hscan := bracketScan_interp td pre t1 y1 t2 y2 post hc h1 h2
    cases pre with
    | nil =>
      simp only [List.nil_append] at hscan ⊢
      simp only [get_delayed, if_neg (not_lt.mpr h1), hscan]
    | cons a pre =>
      obtain ⟨ta, ya⟩ := a
      have hta1 : ta < t1 := by
        have := List.chain'_iff_pairwise.mp hc
        simp only [List.cons_append, List.map_cons, List.pairwise_cons] at this
        exact this.1 t1 (by simp)
      have hta : ¬ td < ta := not_lt.mpr (le_trans (le_of_lt hta1) h1)
      simp only [List.cons_append] at hscan ⊢
      simp only [get_delayed, if_neg hta, hscan]
  · intro pre tl yl h hle
    subst h
    have hscan := bracketScan_beyond td pre tl yl hc hle
    have hlast : ((pre ++ [(tl, yl)]).getLastD (0, default)).2 = yl := by
      rw [getLastD_append_singleton]
    cases pre with
    | nil =>
      rcases hscan with hs | hs <;>
        simp only [List.nil_append] at hs ⊢ <;>
        simp only [get_delayed, if_neg (not_lt.mpr hle), hs] <;>
        simp only [List.nil_append] at hlast <;>
        rw [hlast]
    | cons a pre =>
      obtain ⟨ta, ya⟩ := a
      have htal : ta < tl := by
        have := List.chain'_iff_pairwise.mp hc
        simp only [List.cons_append, List.map_cons, List.pairwise_cons] at this
        exact this.1 tl (by simp)
      have hta : ¬ td < ta := not_lt.mpr (le_trans (le_of_lt htal) hle)
      rcases hscan with hs | hs <;>
        simp only [List.cons_append] at hs ⊢ <;>
        simp only [get_delayed, if_neg hta, hs] <;>
        simp only [List.cons_append] at hlast <;>
        rw [hlast]

/-- C4: during a single simulate run over a non-degenerate span, the
history buffer starts from empty (reset), receives exactly one appended
sample per derivative evaluation taken in forward grid order (its
recorded times are the grid points except the last), and its recorded
times form a strictly increasing sequence.  (Integration scheme modelled
from the spec, see `integrateLoop`.) -/
theorem simulate_history_ordered {α : Type} [LinearOrderedField α] (p : TORDParameters α)
    (sin2pi : α → α) (pat : String) (a b : α) (n : ℕ) (s0 : Option (TORDState α))
    (hab : a < b) :
    (simulate p sin2pi (a, b) n s0 pat).2.1.map (fun q => q.1)
        = (linspace a b n).dropLast ∧
    List.Chain' (· < ·) ((simulate p sin2pi (a, b) n s0 pat).2.1.map (fun q => q.1)) := by
  have hrw : (simulate p sin2pi (a, b) n s0 pat).2.1
      = (integrateLoop p sin2pi pat (linspace a b n)
          (s0.getD { x := 0.1, v_x := 0, y := 0.05, v_y := 0, theta := 1 }) []).1 := rfl
  have h := integrateLoop_hist p sin2pi pat (linspace a b n)
    (s0.getD { x := 0.1, v_x := 0, y := 0.05, v_y := 0, theta := 1 }) []
    (linspace_chain_lt hab n) (by simp) (by simp)
  have h1 : (simulate p sin2pi (a, b) n s0 pat).2.1.map (fun q => q.1)
      = (linspace a b n).dropLast := by
    rw [hrw]
    simpa using h.1
  refine ⟨h1, ?_⟩
  rw [h1]
  exact List.Chain'.sublist (linspace_chain_lt hab n) (List.dropLast_sublist _)

/-- C6: for a valid span `a < b` and `n_points = n ≥ 2`, simulate
returns a time array of length exactly `n` forming the evenly spaced
grid `t_i = a + (b-a)·i/(n-1)` with inclusive endpoints `a` and `b`,
and a state trajectory of exactly `n` 5-component rows whose theta
column is non-negative throughout whenever the initial theta is
non-negative — under the reference parameter ranges
`kappa ≥ 0`, `lambda ≥ 0`, `lambda·h ≤ 1` for the grid step `h`.
(Integration scheme modelled from the spec, see `integrateLoop`.) -/
theorem simulate_grid_theta {α : Type} [LinearOrderedField α] (p : TORDParameters α)
    (sin2pi : α → α) (pat : String) (a b : α) (n : ℕ) (s0 : TORDState α)
    (hab : a < b) (hn : 2 ≤ n) (hkappa : 0 ≤ p.kappa) (hlam : 0 ≤ p.lambda_)
    (hstep : p.lambda_ * ((b - a) / ((n : α) - 1)) ≤ 1) (htheta : 0 ≤ s0.theta) :
    (simulate p sin2pi (a, b) n (some s0) pat).1.length = n ∧
    (∀ i, i < n → (simulate p sin2pi (a, b) n (some s0) pat).1.getD i 0
        = a + (b - a) * i / ((n : α) - 1)) ∧
    (simulate p sin2pi (a, b) n (some s0) pat).1.getD 0 0 = a ∧
    (simulate p sin2pi (a, b) n (some s0) pat).1.getD (n - 1) 0 = b ∧
    ∃ states, (simulate p sin2pi (a, b) n (some s0) pat).2.2 = some states ∧
      states.length = n ∧ ∀ st ∈ states, 0 ≤ st.theta := by
  have ht : (simulate p sin2pi (a, b) n (some s0) pat).1 = linspace a b n := rfl
  have hs : (simulate p sin2pi (a, b) n (some s0) pat).2.2
      = (integrateLoop p sin2pi pat (linspace a b n) s0 []).2 := rfl
  have hn0 : 0 < n := lt_of_lt_of_le (by norm_num) hn
  have hA := integrateLoop_hist p sin2pi pat (linspace a b n) s0 []
    (linspace_chain_lt hab n) (by simp) (by simp)
  obtain ⟨states, hstates⟩ := Option.isSome_iff_exists.mp hA.2
  have hB := integrateLoop_theta p sin2pi pat hkappa hlam (linspace a b n) s0 [] states
    (linspace_chain_step a b p.lambda_ n hab hstep) htheta hstates
  have hne : ((n : α) - 1) ≠ 0 := by
    have h2 : (2 : α) ≤ (n : α) := by exact_mod_cast hn
    have : (1 : α) ≤ (n : α) - 1 := by linarith
    exact ne_of_gt (by linarith)
  refine ⟨by rw [ht]; exact linspace_length a b n,
    fun i hi => by rw [ht]; exact linspace_getD a b hi, ?_, ?_,
    states, by rw [hs]; exact hstates,
    by rw [hB.1]; exact linspace_length a b n, hB.2⟩
  · rw [ht, linspace_getD a b hn0]
    simp
  · rw [ht, linspace_getD a b (Nat.sub_lt hn0 one_pos)]
    have h1n : 1 ≤ n := le_trans (by norm_num) hn
    rw [Nat.cast_sub h1n, Nat.cast_one, mul_div_assoc, div_self hne, mul_one]
    ring

/-- Witness for C5 at a concrete buffer. -/
theorem get_delayed_spec_witness :
    get_delayed (0 : ℚ) [(1, 10), (2, 20), (4, 40)] 7 = some 7 ∧
    get_delayed (3/2 : ℚ) [(1, 10), (2, 20), (4, 40)] 0
      = some ((1 - ((3/2 : ℚ) - 1) / (2 - 1)) * 10 + ((3/2 : ℚ) - 1) / (2 - 1) * 20) ∧
    get_delayed (5 : ℚ) [(1, 10), (2, 20), (4, 40)] 0 = some 40 := by
  have hc : List.Chain' (· < ·)
      (([(1, 10), (2, 20), (4, 40)] : List (ℚ × ℚ)).map Prod.fst) := by
    norm_num [List.chain'_cons]
  exact ⟨(get_delayed_spec 0 7 _ hc).2.1 1 10 [(2, 20), (4, 40)] rfl (by norm_num),
    (get_delayed_spec (3/2) 0 _ hc).2.2.1 [] 1 10 2 20 [(4, 40)] rfl
      (by norm_num) (by norm_num),
    (get_delayed_spec 5 0 _ hc).2.2.2 [(1, 10), (2, 20)] 4 40 rfl (by norm_num)⟩

/-- Witness for C4 at a concrete run. -/
theorem simulate_history_ordered_witness :
    (simulate (⟨0, 0, 0, 0, 0, 0, 0, 0, 0, 0⟩ : TORDParameters ℚ) (fun _ => 0)
        (0, 1) 3 none "pulse").2.1.map (fun q => q.1) = (linspace (0 : ℚ) 1 3).dropLast ∧
    List.Chain' (· < ·) ((simulate (⟨0, 0, 0, 0, 0, 0, 0, 0, 0, 0⟩ : TORDParameters ℚ)
        (fun _ => 0) (0, 1) 3 none "pulse").2.1.map (fun q => q.1)) := by
  exact simulate_history_ordered _ _ _ _ _ _ _ (by norm_num)

/-- Witness for C6 at a concrete run. -/
theorem simulate_grid_theta_witness :
    (simulate (⟨0, 0, 0, 0, 0, 0, 1, 1, 0, 0⟩ : TORDParameters ℚ) (fun _ => 0)
        (0, 1) 3 (some ⟨0, 0, 0, 0, 1⟩) "pulse").1.length = 3 ∧
    (∀ i, i < 3 → (simulate (⟨0, 0, 0, 0, 0, 0, 1, 1, 0, 0⟩ : TORDParameters ℚ)
        (fun _ => 0) (0, 1) 3 (some ⟨0, 0, 0, 0, 1⟩) "pulse").1.getD i 0
        = 0 + (1 - 0) * (i : ℚ) / ((3 : ℚ) - 1)) ∧
    (simulate (⟨0, 0, 0, 0, 0, 0, 1, 1, 0, 0⟩ : TORDParameters ℚ) (fun _ => 0)
        (0, 1) 3 (some ⟨0, 0, 0, 0, 1⟩) "pulse").1.getD 0 0 = 0 ∧
    (simulate (⟨0, 0, 0, 0, 0, 0, 1, 1, 0, 0⟩ : TORDParameters ℚ) (fun _ => 0)
        (0, 1) 3 (some ⟨0, 0, 0, 0, 1⟩) "pulse").1.getD (3 - 1) 0 = 1 ∧
    ∃ states, (simulate (⟨0, 0, 0, 0, 0, 0, 1, 1, 0, 0⟩ : TORDParameters ℚ) (fun _ => 0)
        (0, 1) 3 (some ⟨0, 0, 0, 0, 1⟩) "pulse").2.2 = some states ∧
      states.length = 3 ∧ ∀ st ∈ states, 0 ≤ st.theta := by
  exact simulate_grid_theta _ _ _ _ _ _ _ (by norm_num) (by norm_num) (by norm_num)
    (by norm_num) (by norm_num) (by norm_num)

/-- C8: the normalized absolute dot product `compute_coherence` lies in
`[0, 1]` for all inputs; `coherence(a, -a)` equals `coherence(a, a)`
exactly; equal-length orthogonal series have coherence exactly `0`; and
for a series of nonzero norm, `coherence(a, a)` equals `1` within the
quantitative tolerance `1e-10 / norm(a)^2` forced by the `1e-10`
regularizer in the denominator. -/
theorem compute_coherence_props (a b : List ℝ) :
    (0 ≤ compute_coherence a b ∧ compute_coherence a b ≤ 1) ∧
    compute_coherence a (a.map (fun v => -v)) = compute_coherence a a ∧
    (a.length = b.length → dotList a b = 0 → compute_coherence a b = 0) ∧
    (normList a ≠ 0 → |compute_coherence a a - 1| ≤ 1e-10 / normList a ^ 2) := by
  have hden : (0 : ℝ) < normList a * normList b + 1e-10 := by
    have := mul_nonneg (Real.sqrt_nonneg (sumSq a)) (Real.sqrt_nonneg (sumSq b))
    rw [normList, normList]
    norm_num
    linarith
  refine ⟨⟨?_, ?_⟩, ?_, ?_, ?_⟩
  · exact div_nonneg (abs_nonneg _) hden.le
  · rw [compute_coherence, div_le_one hden]
    have := abs_dotList_le a b
    linarith
  · have hnn : normList (a.map (fun v => -v)) = normList a := by
      rw [normList, sumSq_neg, ← normList]
    rw [compute_coherence, compute_coherence, dotList_neg, abs_neg, dotList_self, hnn]
  · intro _ hdot
    rw [compute_coherence, hdot, abs_zero, zero_div]
  · intro hne
    have hA := sumSq_nonneg a
    have hApos : 0 < sumSq a := by
      rcases eq_or_lt_of_le hA with h0 | h0
      · exact absurd (by rw [normList, ← h0, Real.sqrt_zero]) hne
      · exact h0
    have hsq : normList a * normList a = sumSq a := Real.mul_self_sqrt hA
    have hsq2 : normList a ^ 2 = sumSq a := Real.sq_sqrt hA
    have heps : (0 : ℝ) < 1e-10 := by norm_num
    rw [compute_coherence, dotList_self, abs_of_nonneg hA, hsq, hsq2]
    have hsum : (0 : ℝ) < sumSq a + 1e-10 := by linarith
    have hval : sumSq a / (sumSq a + 1e-10) - 1 = -(1e-10 / (sumSq a + 1e-10)) := by
      field_simp
    rw [hval, abs_neg, abs_of_nonneg (by positivity)]
    apply div_le_div_of_nonneg_left heps.le hApos
    linarith

/-- Witness for C8 at concrete series. -/
theorem compute_coherence_props_witness :
    (0 ≤ compute_coherence [1] [1] ∧ compute_coherence [1] [1] ≤ 1) ∧
    compute_coherence [(1 : ℝ), 0] [0, 1] = 0 ∧
    |compute_coherence [(1 : ℝ)] [1] - 1| ≤ 1e-10 / normList [1] ^ 2 := by
  have hnorm : normList [(1 : ℝ)] ≠ 0 := by
    rw [normList, show sumSq [(1 : ℝ)] = 1 by norm_num [sumSq], Real.sqrt_one]
    norm_num
  exact ⟨(compute_coherence_props [1] [1]).1,
    (compute_coherence_props [1, 0] [0, 1]).2.2.1 rfl (by norm_num [dotList]),
    (compute_coherence_props [1] [1]).2.2.2 hnorm⟩

/-- C10: the claim says every element of `compute_boundary_stability`
lies in `(0, 1]` for every positive window width.  At window width `1`
the slice `arr[i : i]` is empty, `jnp.std` of an empty slice is `nan`
(modelled `none`), and the output element is `nan` — not a real in
`(0, 1]`: on the one-element series `[0]` with window `1` the whole
output is `[none]`. -/
theorem compute_boundary_stability_window_one_nan :
    compute_boundary_stability [0] 1 = [none] := by
  norm_num [compute_boundary_stability, rolling_std, npStd, List.range_succ]

/-- C10 (amended): for every window width `w ≥ 2` — so that every
clamped window slice is nonempty — each element of the rolling
boundary-stability output is a real `1/(1 + std)` lying in the half-open
interval `(0, 1]`: strictly positive and at most `1`, since the windowed
standard deviation is non-negative. -/
theorem compute_boundary_stability_range (theta : List ℝ) (w : ℕ) (hw : 2 ≤ w)
    (i : ℕ) (hi : i < theta.length) :
    ∃ r, (compute_boundary_stability theta w).getD i none = some r ∧ 0 < r ∧ r ≤ 1 := by
  have hlen : i < (compute_boundary_stability theta w).length := by
    simpa [compute_boundary_stability, rolling_std] using hi
  have hval : (compute_boundary_stability theta w).getD i none
      = Option.map (fun s => 1 / (1 + s))
          (npStd ((theta.drop (i - w / 2)).take
            (min theta.length (i + w / 2) - (i - w / 2)))) := by
    rw [List.getD_eq_getElem _ _ hlen]
    simp [compute_boundary_stability, rolling_std]
  have hw2 : 1 ≤ w / 2 := by omega
  have hslice : ¬ ((theta.drop (i - w / 2)).take
      (min theta.length (i + w / 2) - (i - w / 2))).length = 0 := by
    rw [List.length_take, List.length_drop]
    omega
  rw [hval, npStd_eq_some _ hslice]
  exact ⟨_, rfl, (one_div_one_add_mem _ (Real.sqrt_nonneg _)).1,
    (one_div_one_add_mem _ (Real.sqrt_nonneg _)).2⟩

/-- Witness for the amended C10 at a concrete series and window. -/
theorem compute_boundary_stability_range_witness :
    ∃ r, (compute_boundary_stability [0] 2).getD 0 none = some r ∧ 0 < r ∧ r ≤ 1 :=
  compute_boundary_stability_range [0] 2 (by norm_num) 0 (by norm_num)

end TORD
